import Mathlib

/-!
Verification of the discrete natural-neighbor interpolation engine
(`src/naturalneighbor/cnaturalneighbor.cpp`).

The C++ core is embedded shallowly:
* `double` values are modelled as exact rationals (`ℚ`); every concrete
  quantity evaluated below is integer-valued, where IEEE double arithmetic
  is exact, so the model agrees with the source on those runs.
* `std::size_t` arithmetic is modelled as natural numbers reduced modulo
  `W = 2 ^ 64`; in particular `i - roi_radius` is the wrapping subtraction
  `wrapSub`, exactly as the unsigned subtraction in the source behaves.
* The kd-tree (`kdtree.h`) and the host-language wrapper are not part of
  `src/`; they are modelled from the specification and marked as such.
* Failure (dereferencing a failed query, reading past the end of an input
  sequence) is modelled by `Option`: a `none` result stands for a run the
  C++ source does not define.

Rational arithmetic in Batteries is `@[irreducible]`; the attribute is
relaxed locally so that concrete runs of the embedding can be evaluated
by `decide`.
-/

set_option allowUnsafeReducibility true

attribute [local semireducible] Rat.add Rat.mul Rat.inv Rat.sub

namespace NaturalNeighbor

/-- Modulus of `std::size_t` arithmetic (64-bit). -/
def W : Nat := 2 ^ 64

/-- Modelled from the spec: `geometry::Point<double, 3>` (geometry.h is not
under `src/`): three ordered coordinates, used for known points and for grid
cells cast from integer indices. -/
structure Pt where
  x : ℚ
  y : ℚ
  z : ℚ
deriving DecidableEq

/-- Squared Euclidean distance: sum of squared per-axis differences (spec §4.1). -/
def distance_sq (p q : Pt) : ℚ :=
  (p.x - q.x) ^ 2 + (p.y - q.y) ^ 2 + (p.z - q.z) ^ 2

/-- A known point together with its scalar value (spec §3, `KnownPoint`). -/
structure KP where
  pt : Pt
  value : ℚ
deriving DecidableEq

/-- Coordinate of a point along a splitting axis (0 = x, 1 = y, 2 = z). -/
def axisCoord (ax : Fin 3) (p : Pt) : ℚ :=
  if ax.val = 0 then p.x else if ax.val = 1 then p.y else p.z

/-- Modelled from the spec: the kd-tree node structure of `kdtree.h`
(not under `src/`): one known point, a splitting axis cycling with depth,
and two subtrees (spec §3, `Index Node`). -/
inductive Kd where
  | leaf : Kd
  | node (ax : Fin 3) (kp : KP) (l r : Kd) : Kd

/-- All known points stored in a tree. -/
def Kd.toList : Kd → List KP
  | .leaf => []
  | .node _ kp l r => kp :: (l.toList ++ r.toList)

/-- The kd-tree ordering invariant (spec §3, `Index Node`): every point in
the left subtree has splitting-axis coordinate at most the node point's,
every point in the right subtree at least it. -/
def Kd.inv : Kd → Prop
  | .leaf => True
  | .node ax kp l r =>
    (∀ p ∈ l.toList, axisCoord ax p.pt ≤ axisCoord ax kp.pt) ∧
    (∀ p ∈ r.toList, axisCoord ax kp.pt ≤ axisCoord ax p.pt) ∧ l.inv ∧ r.inv

/-- Ordering of known points by coordinate along a given axis. -/
def axLe (ax : Fin 3) (a b : KP) : Prop :=
  axisCoord ax a.pt ≤ axisCoord ax b.pt

instance (ax : Fin 3) : DecidableRel (axLe ax) :=
  fun a b => inferInstanceAs (Decidable (_ ≤ _))

instance (ax : Fin 3) : IsTotal KP (axLe ax) :=
  ⟨fun a b => le_total (axisCoord ax a.pt) (axisCoord ax b.pt)⟩

instance (ax : Fin 3) : IsTrans KP (axLe ax) :=
  ⟨fun a b c hab hbc => le_trans hab hbc⟩

/-- The splitting axis at a given tree depth: it cycles with depth
(spec §4.2, axis = depth mod 3).  Used by the modelled kd-tree build
(`kdtree.h` is not under `src/`): the tree recursively partitions the point
set around its median along this axis.  The `fuel` argument of `build` makes
the recursion structural; `fuel ≥ pts.length` always suffices
(`toList_build_perm`). -/
def axOf (depth : Nat) : Fin 3 :=
  ⟨depth % 3, Nat.mod_lt depth (by decide)⟩

/-- Modelled from the spec: the recursive median-split construction itself
(spec §4.2, `Build`). -/
def build : Nat → Nat → List KP → Kd
  | 0, _, _ => .leaf
  | fuel + 1, depth, pts =>
    let ax : Fin 3 := axOf depth
    let sorted := List.insertionSort (axLe ax) pts
    let m := sorted.length / 2
    match sorted[m]? with
    | none => .leaf
    | some med =>
      .node ax med (build fuel (depth + 1) (sorted.take m))
        (build fuel (depth + 1) (sorted.drop (m + 1)))

/-- Update of the running best `(point, squared distance)` pair with one
candidate known point; the first point found wins ties (spec §4.2). -/
def nearestBest (q : Pt) (b : Option (KP × ℚ)) (kp : KP) : Option (KP × ℚ) :=
  let d := distance_sq q kp.pt
  match b with
  | none => some (kp, d)
  | some (bkp, bd) => if d < bd then some (kp, d) else some (bkp, bd)

/-- Modelled from the spec: the nearest-neighbour query of `kdtree.h`
(`nearest_iterative`, not under `src/`): descend into the child on the
query's side of the partition plane first, keep a running best, and visit
the other child only when the squared distance to the partition plane does
not exceed the current best squared distance (spec §4.2,
`NearestNeighbor`). -/
def nearestAux : Kd → Pt → Option (KP × ℚ) → Option (KP × ℚ)
  | .leaf, _, b => b
  | .node ax kp l r, q, b =>
    let b1 := nearestBest q b kp
    let qa := axisCoord ax q
    let sa := axisCoord ax kp.pt
    if qa ≤ sa then
      match nearestAux l q b1 with
      | none => nearestAux r q none
      | some (bkp, bd) =>
        if (qa - sa) ^ 2 ≤ bd then nearestAux r q (some (bkp, bd))
        else some (bkp, bd)
    else
      match nearestAux r q b1 with
      | none => nearestAux l q none
      | some (bkp, bd) =>
        if (qa - sa) ^ 2 ≤ bd then nearestAux l q (some (bkp, bd))
        else some (bkp, bd)

/-- Exhaustive linear scan (spec §8): the minimum squared distance from the
query to any known point.  This is the specification-side definition that
the kd-tree query is compared against. -/
def linearScanMinDist (q : Pt) (pts : List KP) : Option ℚ :=
  match pts.map (fun p => distance_sq q p.pt) with
  | [] => none
  | d :: ds => some (ds.foldl min d)

/-- Embedding of `clamp` (cnaturalneighbor.cpp, lines 46–54).  All three
arguments are `std::size_t`, hence `Nat` here. -/
def clamp (val min max : Nat) : Nat :=
  if val < min then min
  else if val > max then max
  else val

/-- Wrapping `std::size_t` subtraction `a - b` (modulo `2 ^ 64`). -/
def wrapSub (a b : Nat) : Nat :=
  (a % W + (W - b % W)) % W

/-- Ceiling of a positive rational, as a natural number. -/
def natCeil (q : ℚ) : Nat :=
  (q.num.toNat + q.den - 1) / q.den

/-- Least `n` with `m ≤ n * n` (integer ceiling square root). -/
def intCeilSqrt (m : Nat) : Nat :=
  (((List.range (m + 1)).find? (fun n => decide (m ≤ n * n))).getD m)

/-- Embedding of `int roi_radius = ceil(sqrt(distance_sq_to_known_point))`
(line 107): the exact ceiling of the square root.  For the integer-valued
squared distances arising from integer grids and integer known points the
IEEE `sqrt`/`ceil` combination computes exactly this value. -/
def ceilSqrt (q : ℚ) : Nat :=
  if q ≤ 0 then 0 else intCeilSqrt (natCeil q)

/-- Embedding of the flat index `nj*nk*i + nk*j + k` (lines 129, 144),
computed in `std::size_t` arithmetic. -/
def indice (nj nk i j k : Nat) : Nat :=
  (nj * nk * i + nk * j + k) % W

/-- Pointwise update of a buffer, modelling a store through a raw pointer:
the write lands at whatever index is computed, with no bounds check. -/
def upd (f : Nat → ℚ) (i : Nat) (v : ℚ) : Nat → ℚ :=
  fun m => if m = i then v else f m

/-- The two caller-owned buffers: `interp_values_ptr` and
`contribution_counter_ptr`, modelled as total functions from flat indices
(raw memory). -/
structure St where
  interp_values : Nat → ℚ
  contribution_counter : Nat → ℚ

/-- One axis of the region-of-interest bounding box (lines 114–119):
`clamp(c - r, 0, dim - 1)` up to `clamp(c + r, 0, dim - 1)`, all in
`std::size_t` arithmetic, iterated inclusively (empty when the lower bound
exceeds the upper one). -/
def roiRange (c r dim : Nat) : List Nat :=
  let lo := clamp (wrapSub c r) 0 (dim - 1)
  let hi := clamp ((c + r) % W) 0 (dim - 1)
  List.range' lo (hi + 1 - lo)

/-- Squared distance from cell `(i,j,k)` to candidate `(a,b,c)` as the
source computes it (lines 124–127): per-axis `std::size_t` subtraction and
multiplication, converted to `double`. -/
def roiDist2 (i j k a b c : Nat) : ℚ :=
  let deltai_2 : ℚ := ((wrapSub i a * wrapSub i a) % W : Nat)
  let deltaj_2 : ℚ := ((wrapSub j b * wrapSub j b) % W : Nat)
  let deltak_2 : ℚ := ((wrapSub k c * wrapSub k c) % W : Nat)
  deltai_2 + deltaj_2 + deltak_2

/-- Scatter step for one grid cell (lines 101–139): query the tree for the
nearest known point, derive the search radius, and for every candidate in
the clamped bounding box whose squared distance does not exceed the
nearest-known-point squared distance, add the nearest value and bump the
counter at flat index `indice nj nk i j k`.  A failed query (empty index)
is dereferenced unconditionally by the source; this is modelled as
`none`. -/
def scatterCell (tree : Kd) (ni nj nk i j k : Nat) (st : St) : Option St :=
  match nearestAux tree ⟨(i : ℚ), (j : ℚ), (k : ℚ)⟩ none with
  | none => none
  | some (nearest_known_point, distance_sq_to_known_point) =>
    let roi_radius := ceilSqrt distance_sq_to_known_point
    some ((roiRange i roi_radius ni).foldl (fun st1 i_roi =>
      (roiRange j roi_radius nj).foldl (fun st2 j_roi =>
        (roiRange k roi_radius nk).foldl (fun st3 k_roi =>
          if roiDist2 i j k i_roi j_roi k_roi ≤ distance_sq_to_known_point then
            let idx := indice nj nk i j k
            { interp_values :=
                upd st3.interp_values idx
                  (st3.interp_values idx + nearest_known_point.value),
              contribution_counter :=
                upd st3.contribution_counter idx
                  (st3.contribution_counter idx + 1) }
          else st3) st2) st1) st)

/-- The grid traversal order of the three nested cell loops (lines 101–103). -/
def cells (ni nj nk : Nat) : List (Nat × Nat × Nat) :=
  (List.range ni).flatMap fun i =>
    (List.range nj).flatMap fun j =>
      (List.range nk).map fun k => (i, j, k)

/-- The scatter phase: every grid cell in row-major order. -/
def scatter (tree : Kd) (ni nj nk : Nat) (st : St) : Option St :=
  (cells ni nj nk).foldlM
    (fun s c => scatterCell tree ni nj nk c.1 c.2.1 c.2.2 s) st

/-- The normalization pass (lines 141–150): for every grid cell, divide the
accumulator by the counter when the counter is nonzero. -/
def normalize (ni nj nk : Nat) (st : St) : St :=
  (cells ni nj nk).foldl
    (fun s c =>
      let idx := indice nj nk c.1 c.2.1 c.2.2
      if s.contribution_counter idx ≠ 0 then
        { s with
          interp_values := upd s.interp_values idx
            (s.interp_values idx / s.contribution_counter idx) }
      else s) st

/-- Reading the input arrays (lines 74–87): `num_known_points` is taken
from the coordinate array's first dimension and `known_values[i]` is read
for every `i` below it; a read past the end of the value sequence is
undefined in the source and modelled as `none`. -/
def readKnown (known_coords : List (ℚ × ℚ × ℚ)) (known_values : List ℚ) :
    Option (List KP) :=
  (List.range known_coords.length).mapM fun i => do
    let c ← known_coords[i]?
    let v ← known_values[i]?
    pure ⟨⟨c.1, c.2.1, c.2.2⟩, v⟩

/-- Embedding of `cnaturalneighbor_griddata` (lines 57–155): read the known
points, build the index, scatter, then normalize. -/
def griddata (known_coords : List (ℚ × ℚ × ℚ)) (known_values : List ℚ)
    (ni nj nk : Nat) (st : St) : Option St := do
  let kps ← readKnown known_coords known_values
  let tree := build kps.length 0 kps
  let st1 ← scatter tree ni nj nk st
  pure (normalize ni nj nk st1)

/-- Errors of the call contract (spec §7). -/
inductive InterpError where
  | shapeMismatch
deriving DecidableEq

/-- Modelled from the spec: the host-language wrapper of the repository
(not under `src/`) that validates the §6 preconditions — equal lengths of
the known-coordinate and known-value sequences and equal shapes of the two
output buffers — and rejects before any processing begins (spec §7,
`ShapeMismatch`). -/
def interpolate (known_coords : List (ℚ × ℚ × ℚ)) (known_values : List ℚ)
    (outShape cntShape : Nat × Nat × Nat) (st : St) :
    Except InterpError (Option St) :=
  if known_coords.length ≠ known_values.length ∨ outShape ≠ cntShape then
    .error .shapeMismatch
  else
    .ok (griddata known_coords known_values outShape.1 outShape.2.1 outShape.2.2 st)

/-- The write log of one cell's scatter step: the flat index and value of
every store the source performs for that cell, in order. -/
def cellWrites (tree : Kd) (ni nj nk i j k : Nat) : Option (List (Nat × ℚ)) :=
  match nearestAux tree ⟨(i : ℚ), (j : ℚ), (k : ℚ)⟩ none with
  | none => none
  | some (nearest_known_point, distance_sq_to_known_point) =>
    let roi_radius := ceilSqrt distance_sq_to_known_point
    some (((roiRange i roi_radius ni).flatMap fun i_roi =>
      (roiRange j roi_radius nj).flatMap fun j_roi =>
        (roiRange k roi_radius nk).map fun k_roi => (i_roi, j_roi, k_roi)).filterMap
      fun t =>
        if roiDist2 i j k t.1 t.2.1 t.2.2 ≤ distance_sq_to_known_point then
          some (indice nj nk i j k, nearest_known_point.value)
        else none)

/-- Replay one logged write. -/
def applyWrite (st : St) (w : Nat × ℚ) : St :=
  { interp_values := upd st.interp_values w.1 (st.interp_values w.1 + w.2),
    contribution_counter :=
      upd st.contribution_counter w.1 (st.contribution_counter w.1 + 1) }

/-- Replay a write log. -/
def applyWrites (st : St) (ws : List (Nat × ℚ)) : St :=
  ws.foldl applyWrite st

/-- Concatenation of the per-cell write logs over a list of cells, failing
as soon as one cell's query fails. -/
def collectLogs (tree : Kd) (ni nj nk : Nat) :
    List (Nat × Nat × Nat) → Option (List (Nat × ℚ))
  | [] => some []
  | c :: l =>
    match cellWrites tree ni nj nk c.1 c.2.1 c.2.2 with
    | none => none
    | some ws => (collectLogs tree ni nj nk l).map (ws ++ ·)

/-- The write log of the whole scatter phase: the per-cell logs in grid
traversal order, concatenated. -/
def allWrites (tree : Kd) (ni nj nk : Nat) : Option (List (Nat × ℚ)) :=
  collectLogs tree ni nj nk (cells ni nj nk)

/-- The write log of a full `griddata` call. -/
def gridWrites (known_coords : List (ℚ × ℚ × ℚ)) (known_values : List ℚ)
    (ni nj nk : Nat) : Option (List (Nat × ℚ)) := do
  let kps ← readKnown known_coords known_values
  allWrites (build kps.length 0 kps) ni nj nk

/-- Zero-initialized buffers. -/
def st0 : St := ⟨fun _ => 0, fun _ => 0⟩


/-- The values a write log stores at flat index `m`, in order: the "values
added to that cell during the scatter phase". -/
def writesAt (ws : List (Nat × ℚ)) (m : Nat) : List ℚ :=
  (ws.filter (fun w => w.1 == m)).map Prod.snd

/-! ### Replaying write logs pointwise -/

theorem foldl_flatMap {α β σ : Type _} (f : σ → β → σ) (g : α → List β) :
    ∀ (l : List α) (s : σ),
      (l.flatMap g).foldl f s = l.foldl (fun a x => (g x).foldl f a) s
  | [], _ => rfl
  | x :: l, s => by
    simp only [List.flatMap_cons, List.foldl_append, List.foldl_cons]
    exact foldl_flatMap f g l _

theorem foldl_filterMap {β γ σ : Type _} (h : β → Option γ) (f : σ → γ → σ) :
    ∀ (l : List β) (s : σ),
      (l.filterMap h).foldl f s =
        l.foldl (fun a x => match h x with | some y => f a y | none => a) s
  | [], _ => rfl
  | x :: l, s => by
    cases hx : h x <;>
      simp only [List.filterMap_cons, hx, List.foldl_cons] <;>
      exact foldl_filterMap h f l _

theorem applyWrites_append (st : St) (a b : List (Nat × ℚ)) :
    applyWrites st (a ++ b) = applyWrites (applyWrites st a) b :=
  List.foldl_append ..

theorem applyWrites_interp : ∀ (ws : List (Nat × ℚ)) (st : St) (m : Nat),
    (applyWrites st ws).interp_values m =
      st.interp_values m + (writesAt ws m).sum
  | [], st, m => by simp [applyWrites, writesAt]
  | w :: ws, st, m => by
    have ih := applyWrites_interp ws (applyWrite st w) m
    have hstep : applyWrites st (w :: ws) = applyWrites (applyWrite st w) ws := rfl
    rw [hstep, ih]
    by_cases hw : w.1 = m
    · subst hw
      simp [applyWrite, upd, writesAt, List.filter_cons] <;> ring
    · have hm : ¬(m = w.1) := fun h => hw h.symm
      simp [applyWrite, upd, writesAt, List.filter_cons, hw, hm]

theorem applyWrites_counter : ∀ (ws : List (Nat × ℚ)) (st : St) (m : Nat),
    (applyWrites st ws).contribution_counter m =
      st.contribution_counter m + ((writesAt ws m).length : ℚ)
  | [], st, m => by simp [applyWrites, writesAt]
  | w :: ws, st, m => by
    have ih := applyWrites_counter ws (applyWrite st w) m
    have hstep : applyWrites st (w :: ws) = applyWrites (applyWrite st w) ws := rfl
    rw [hstep, ih]
    by_cases hw : w.1 = m
    · subst hw
      simp [applyWrite, upd, writesAt, List.filter_cons] <;> ring
    · have hm : ¬(m = w.1) := fun h => hw h.symm
      simp [applyWrite, upd, writesAt, List.filter_cons, hw, hm]

theorem foldl_scatter_log1 (w : Nat × ℚ) (cond : Nat → Prop) [DecidablePred cond] :
    ∀ (l : List Nat) (st : St),
      l.foldl (fun s c => if cond c then applyWrite s w else s) st =
        applyWrites st (l.filterMap fun c => if cond c then some w else none)
  | [], _ => rfl
  | c :: l, st => by
    by_cases h : cond c <;>
      simp only [List.foldl_cons, List.filterMap_cons, h, if_pos, if_neg,
        ite_true, ite_false] <;>
      rw [foldl_scatter_log1 w cond l] <;> rfl

theorem foldl_scatter_log2 (w : Nat × ℚ) (cond : Nat → Nat → Prop)
    [∀ b c, Decidable (cond b c)] (l3 : List Nat) :
    ∀ (l2 : List Nat) (st : St),
      l2.foldl (fun s b => l3.foldl (fun s2 c =>
          if cond b c then applyWrite s2 w else s2) s) st =
        applyWrites st ((l2.flatMap fun b => l3.map fun c => (b, c)).filterMap
          fun t => if cond t.1 t.2 then some w else none)
  | [], _ => rfl
  | b :: l2, st => by
    simp only [List.foldl_cons, List.flatMap_cons, List.filterMap_append,
      applyWrites_append]
    rw [foldl_scatter_log2 w cond l3 l2]
    congr 1
    rw [foldl_scatter_log1 w (cond b) l3]
    congr 1
    simp [List.filterMap_map, Function.comp_def]

theorem foldl_scatter_log3 (w : Nat × ℚ) (cond : Nat → Nat → Nat → Prop)
    [∀ a b c, Decidable (cond a b c)] (l2 l3 : List Nat) :
    ∀ (l1 : List Nat) (st : St),
      l1.foldl (fun s a => l2.foldl (fun s2 b => l3.foldl (fun s3 c =>
          if cond a b c then applyWrite s3 w else s3) s2) s) st =
        applyWrites st
          ((l1.flatMap fun a => l2.flatMap fun b => l3.map fun c => (a, b, c)).filterMap
            fun t => if cond t.1 t.2.1 t.2.2 then some w else none)
  | [], _ => rfl
  | a :: l1, st => by
    simp only [List.foldl_cons, List.flatMap_cons, List.filterMap_append,
      applyWrites_append]
    rw [foldl_scatter_log3 w cond l2 l3 l1]
    congr 1
    rw [foldl_scatter_log2 w (cond a) l3 l2]
    congr 1
    simp only [List.filterMap_flatMap, List.filterMap_map, Function.comp_def]

theorem scatterCell_eq (tree : Kd) (ni nj nk i j k : Nat) (st : St) :
    scatterCell tree ni nj nk i j k st =
      (cellWrites tree ni nj nk i j k).map (applyWrites st) := by
  unfold scatterCell cellWrites
  cases hn : nearestAux tree ⟨(i : ℚ), (j : ℚ), (k : ℚ)⟩ none with
  | none => rfl
  | some best =>
    obtain ⟨nkp, d2⟩ := best
    simp only [Option.map_some]
    congr 1
    exact foldl_scatter_log3 (indice nj nk i j k, nkp.value)
      (fun a b c => roiDist2 i j k a b c ≤ d2)
      (roiRange j (ceilSqrt d2) nj) (roiRange k (ceilSqrt d2) nk)
      (roiRange i (ceilSqrt d2) ni) st

theorem scatterAux_eq (tree : Kd) (ni nj nk : Nat) :
    ∀ (l : List (Nat × Nat × Nat)) (st : St),
      l.foldlM (fun s c => scatterCell tree ni nj nk c.1 c.2.1 c.2.2 s) st =
        (collectLogs tree ni nj nk l).map (applyWrites st)
  | [], _ => rfl
  | c :: l, st => by
    rw [List.foldlM_cons, scatterCell_eq]
    cases hc : cellWrites tree ni nj nk c.1 c.2.1 c.2.2 with
    | none => simp [collectLogs, hc]
    | some ws =>
      simp only [collectLogs, hc, Option.map_some', Option.bind_eq_bind, Option.some_bind]
      rw [scatterAux_eq tree ni nj nk l (applyWrites st ws)]
      cases hm : collectLogs tree ni nj nk l with
      | none => rfl
      | some rs => simp only [Option.map_some', applyWrites_append]

theorem scatter_eq_allWrites (tree : Kd) (ni nj nk : Nat) (st : St) :
    scatter tree ni nj nk st = (allWrites tree ni nj nk).map (applyWrites st) :=
  scatterAux_eq tree ni nj nk (cells ni nj nk) st

/-! ### The flat index -/

theorem indice_raw_lt {ni nj nk i j k : Nat} (hi : i < ni) (hj : j < nj)
    (hk : k < nk) : nj * nk * i + nk * j + k < ni * (nj * nk) := by
  have h1 : nk * j + k < nk * nj := by
    calc nk * j + k < nk * j + nk := by omega
    _ = nk * (j + 1) := by ring
    _ ≤ nk * nj := Nat.mul_le_mul_left nk hj
  calc nj * nk * i + nk * j + k < nj * nk * i + nk * nj := by omega
  _ = nj * nk * (i + 1) := by ring
  _ ≤ nj * nk * ni := Nat.mul_le_mul_left (nj * nk) hi
  _ = ni * (nj * nk) := by ring

theorem indice_eq {ni nj nk i j k : Nat} (hW : ni * nj * nk ≤ W)
    (hi : i < ni) (hj : j < nj) (hk : k < nk) :
    indice nj nk i j k = nj * nk * i + nk * j + k := by
  unfold indice
  apply Nat.mod_eq_of_lt
  calc nj * nk * i + nk * j + k < ni * (nj * nk) := indice_raw_lt hi hj hk
  _ = ni * nj * nk := by ring
  _ ≤ W := hW

theorem indice_lt {ni nj nk i j k : Nat} (hW : ni * nj * nk ≤ W)
    (hi : i < ni) (hj : j < nj) (hk : k < nk) :
    indice nj nk i j k < ni * nj * nk := by
  rw [indice_eq hW hi hj hk]
  calc nj * nk * i + nk * j + k < ni * (nj * nk) := indice_raw_lt hi hj hk
  _ = ni * nj * nk := by ring

theorem indice_inj {ni nj nk : Nat} (hW : ni * nj * nk ≤ W)
    {i j k i' j' k' : Nat} (hi : i < ni) (hj : j < nj) (hk : k < nk)
    (hi' : i' < ni) (hj' : j' < nj) (hk' : k' < nk)
    (h : indice nj nk i j k = indice nj nk i' j' k') :
    i = i' ∧ j = j' ∧ k = k' := by
  rw [indice_eq hW hi hj hk, indice_eq hW hi' hj' hk'] at h
  have hraw : nk * (nj * i + j) + k = nk * (nj * i' + j') + k' := by
    calc nk * (nj * i + j) + k = nj * nk * i + nk * j + k := by ring
    _ = nj * nk * i' + nk * j' + k' := h
    _ = nk * (nj * i' + j') + k' := by ring
  have hk0 : 0 < nk := Nat.zero_lt_of_lt hk
  have hkk : k = k' := by
    have := congrArg (· % nk) hraw
    simpa [Nat.mul_add_mod, Nat.mod_eq_of_lt hk, Nat.mod_eq_of_lt hk'] using this
  have hmid : nj * i + j = nj * i' + j' := by
    have := congrArg (· / nk) hraw
    simpa [Nat.mul_add_div hk0, Nat.div_eq_of_lt hk, Nat.div_eq_of_lt hk'] using this
  have hnj : 0 < nj := Nat.zero_lt_of_lt hj
  have hjj : j = j' := by
    have hmid' : nj * i + j = nj * i' + j' := hmid
    have := congrArg (· % nj) hmid'
    simpa [Nat.mul_add_mod, Nat.mod_eq_of_lt hj, Nat.mod_eq_of_lt hj'] using this
  have hii : i = i' := by
    have := congrArg (· / nj) hmid
    simpa [Nat.mul_add_div hnj, Nat.div_eq_of_lt hj, Nat.div_eq_of_lt hj'] using this
  exact ⟨hii, hjj, hkk⟩

/-! ### The grid traversal -/

theorem mem_cells {ni nj nk : Nat} {c : Nat × Nat × Nat} :
    c ∈ cells ni nj nk ↔ c.1 < ni ∧ c.2.1 < nj ∧ c.2.2 < nk := by
  obtain ⟨i, j, k⟩ := c
  simp only [cells, List.mem_flatMap, List.mem_map, List.mem_range, Prod.mk.injEq]
  constructor
  · rintro ⟨a, ha, b, hb, c', hc', h1, h2, h3⟩
    subst h1; subst h2; subst h3
    exact ⟨ha, hb, hc'⟩
  · rintro ⟨hi, hj, hk⟩
    exact ⟨i, hi, j, hj, k, hk, rfl, rfl, rfl⟩

theorem cells_nodup (ni nj nk : Nat) : (cells ni nj nk).Nodup := by
  unfold cells
  rw [List.nodup_flatMap]
  refine ⟨fun i _ => ?_, ?_⟩
  · rw [List.nodup_flatMap]
    refine ⟨fun j _ => ?_, ?_⟩
    · exact (List.nodup_range nk).map (fun a b h => by
        simpa using congrArg (fun t => t.2.2) h)
    · refine List.Pairwise.imp ?_ (List.pairwise_lt_range nj)
      intro a b hab t hta htb
      simp only [List.mem_map] at hta htb
      obtain ⟨k1, _, hk1⟩ := hta
      obtain ⟨k2, _, hk2⟩ := htb
      rw [← hk1] at hk2
      have : b = a := by simpa using congrArg (fun t => t.2.1) hk2
      omega
  · refine List.Pairwise.imp ?_ (List.pairwise_lt_range ni)
    intro a b hab t hta htb
    simp only [List.mem_flatMap, List.mem_map] at hta htb
    obtain ⟨j1, _, k1, _, hk1⟩ := hta
    obtain ⟨j2, _, k2, _, hk2⟩ := htb
    rw [← hk1] at hk2
    have : b = a := by simpa using congrArg (fun t => t.1) hk2
    omega

theorem cells_idx_nodup {ni nj nk : Nat} (hW : ni * nj * nk ≤ W) :
    ((cells ni nj nk).map fun c => indice nj nk c.1 c.2.1 c.2.2).Nodup := by
  refine List.Nodup.map_on ?_ (cells_nodup ni nj nk)
  intro x hx y hy hxy
  rw [mem_cells] at hx hy
  obtain ⟨h1, h2, h3⟩ := indice_inj hW hx.1 hx.2.1 hx.2.2 hy.1 hy.2.1 hy.2.2 hxy
  exact Prod.ext h1 (Prod.ext h2 h3)

/-! ### Write logs -/

theorem cellWrites_idx {tree : Kd} {ni nj nk i j k : Nat} {ws : List (Nat × ℚ)}
    (h : cellWrites tree ni nj nk i j k = some ws) :
    ∀ w ∈ ws, w.1 = indice nj nk i j k := by
  unfold cellWrites at h
  split at h
  · exact absurd h (by simp)
  · obtain rfl : _ = ws := Option.some.inj h
    intro w hw
    rw [List.mem_filterMap] at hw
    obtain ⟨t, _, ht⟩ := hw
    split at ht
    · obtain rfl : _ = w := Option.some.inj ht
      rfl
    · exact absurd ht (by simp)

theorem cellWrites_isSome {tree : Kd} {ni nj nk i j k : Nat}
    (h : ∃ b, nearestAux tree ⟨(i : ℚ), (j : ℚ), (k : ℚ)⟩ none = some b) :
    ∃ ws, cellWrites tree ni nj nk i j k = some ws := by
  obtain ⟨b, hb⟩ := h
  unfold cellWrites
  rw [hb]
  exact ⟨_, rfl⟩

theorem collectLogs_isSome {tree : Kd} {ni nj nk : Nat} :
    ∀ {l : List (Nat × Nat × Nat)},
      (∀ c ∈ l, ∃ ws, cellWrites tree ni nj nk c.1 c.2.1 c.2.2 = some ws) →
      ∃ ws, collectLogs tree ni nj nk l = some ws := by
  intro l
  induction l with
  | nil => exact fun _ => ⟨[], rfl⟩
  | cons c l ih =>
    intro h
    obtain ⟨wc, hwc⟩ := h c (List.mem_cons_self c l)
    obtain ⟨ws, hws⟩ := ih fun x hx => h x (List.mem_cons_of_mem c hx)
    exact ⟨wc ++ ws, by simp [collectLogs, hwc, hws]⟩

theorem collectLogs_mem_idx {tree : Kd} {ni nj nk : Nat} :
    ∀ {l : List (Nat × Nat × Nat)} {ws : List (Nat × ℚ)},
      collectLogs tree ni nj nk l = some ws →
      ∀ w ∈ ws, ∃ c ∈ l, w.1 = indice nj nk c.1 c.2.1 c.2.2 := by
  intro l
  induction l with
  | nil =>
    intro ws h
    obtain rfl : [] = ws := Option.some.inj h
    intro w hw
    exact absurd hw (by simp)
  | cons c l ih =>
    intro ws h
    rw [collectLogs] at h
    split at h
    · exact absurd h (by simp)
    · rename_i wc hwc
      rw [Option.map_eq_some'] at h
      obtain ⟨rest, hrest, rfl⟩ := h
      intro w hw
      rcases List.mem_append.1 hw with hl | hr
      · exact ⟨c, List.mem_cons_self c l, cellWrites_idx hwc w hl⟩
      · obtain ⟨c', hc', hidx⟩ := ih hrest w hr
        exact ⟨c', List.mem_cons_of_mem c hc', hidx⟩

theorem collectLogs_append {tree : Kd} {ni nj nk : Nat} :
    ∀ (l1 l2 : List (Nat × Nat × Nat)),
      collectLogs tree ni nj nk (l1 ++ l2) =
        (collectLogs tree ni nj nk l1).bind fun a =>
          (collectLogs tree ni nj nk l2).map (a ++ ·)
  | [], l2 => by
    cases h2 : collectLogs tree ni nj nk l2 <;> simp [collectLogs, h2]
  | c :: l1, l2 => by
    rw [List.cons_append, collectLogs, collectLogs]
    cases hwc : cellWrites tree ni nj nk c.1 c.2.1 c.2.2 with
    | none => rfl
    | some wc =>
      rw [collectLogs_append l1 l2]
      cases h1 : collectLogs tree ni nj nk l1 with
      | none => rfl
      | some a =>
        cases h2 : collectLogs tree ni nj nk l2 with
        | none => rfl
        | some b => simp [List.append_assoc]

theorem writesAt_append (a b : List (Nat × ℚ)) (m : Nat) :
    writesAt (a ++ b) m = writesAt a m ++ writesAt b m := by
  simp [writesAt, List.filter_append]

theorem writesAt_of_all {ws : List (Nat × ℚ)} {m : Nat}
    (h : ∀ w ∈ ws, w.1 = m) : writesAt ws m = ws.map Prod.snd := by
  unfold writesAt
  rw [List.filter_eq_self.2]
  intro w hw
  simp [h w hw]

theorem writesAt_of_none {ws : List (Nat × ℚ)} {m : Nat}
    (h : ∀ w ∈ ws, w.1 ≠ m) : writesAt ws m = [] := by
  unfold writesAt
  rw [List.filter_eq_nil_iff.2]
  · rfl
  · intro w hw
    simp [h w hw]

/-! ### The normalization pass, pointwise -/

theorem normFold_counter (ni nj nk : Nat) :
    ∀ (l : List (Nat × Nat × Nat)) (st : St),
      (l.foldl (fun s c =>
        let idx := indice nj nk c.1 c.2.1 c.2.2
        if s.contribution_counter idx ≠ 0 then
          { s with
            interp_values := upd s.interp_values idx
              (s.interp_values idx / s.contribution_counter idx) }
        else s) st).contribution_counter = st.contribution_counter
  | [], _ => rfl
  | c :: l, st => by
    rw [List.foldl_cons, normFold_counter ni nj nk l]
    by_cases h : st.contribution_counter (indice nj nk c.1 c.2.1 c.2.2) ≠ 0 <;>
      simp [h]

theorem normFold_frame (ni nj nk : Nat) :
    ∀ (l : List (Nat × Nat × Nat)) (st : St) (m : Nat),
      (∀ c ∈ l, indice nj nk c.1 c.2.1 c.2.2 ≠ m) →
      (l.foldl (fun s c =>
        let idx := indice nj nk c.1 c.2.1 c.2.2
        if s.contribution_counter idx ≠ 0 then
          { s with
            interp_values := upd s.interp_values idx
              (s.interp_values idx / s.contribution_counter idx) }
        else s) st).interp_values m = st.interp_values m
  | [], _, _, _ => rfl
  | c :: l, st, m, h => by
    rw [List.foldl_cons,
      normFold_frame ni nj nk l _ m (fun x hx => h x (List.mem_cons_of_mem c hx))]
    have hc := h c (List.mem_cons_self c l)
    by_cases hz : st.contribution_counter (indice nj nk c.1 c.2.1 c.2.2) ≠ 0 <;>
      simp [hz, upd, Ne.symm hc]

theorem normFold_at (ni nj nk : Nat) :
    ∀ (l : List (Nat × Nat × Nat)) (st : St) (c : Nat × Nat × Nat), c ∈ l →
      ((l.map fun c => indice nj nk c.1 c.2.1 c.2.2).Nodup) →
      (l.foldl (fun s c =>
        let idx := indice nj nk c.1 c.2.1 c.2.2
        if s.contribution_counter idx ≠ 0 then
          { s with
            interp_values := upd s.interp_values idx
              (s.interp_values idx / s.contribution_counter idx) }
        else s) st).interp_values (indice nj nk c.1 c.2.1 c.2.2) =
        (if st.contribution_counter (indice nj nk c.1 c.2.1 c.2.2) ≠ 0 then
          st.interp_values (indice nj nk c.1 c.2.1 c.2.2) /
            st.contribution_counter (indice nj nk c.1 c.2.1 c.2.2)
        else st.interp_values (indice nj nk c.1 c.2.1 c.2.2))
  | d :: l, st, c, hc, hnd => by
    rw [List.foldl_cons]
    rw [List.map_cons, List.nodup_cons] at hnd
    obtain ⟨hdl, hnd'⟩ := hnd
    by_cases hdc : indice nj nk d.1 d.2.1 d.2.2 = indice nj nk c.1 c.2.1 c.2.2
    · rw [← hdc]
      rw [normFold_frame ni nj nk l _ _ (fun x hx hxd => hdl (by
        rw [← hxd]; exact List.mem_map_of_mem _ hx))]
      by_cases hz : st.contribution_counter (indice nj nk d.1 d.2.1 d.2.2) ≠ 0 <;>
        simp [hz, upd]
    · have hcl : c ∈ l := by
        rcases List.mem_cons.1 hc with rfl | h
        · exact absurd rfl hdc
        · exact h
      have step_counter : ∀ (s : St),
          ((fun s (c : Nat × Nat × Nat) =>
            let idx := indice nj nk c.1 c.2.1 c.2.2
            if s.contribution_counter idx ≠ 0 then
              { s with
                interp_values := upd s.interp_values idx
                  (s.interp_values idx / s.contribution_counter idx) }
            else s) s d).contribution_counter = s.contribution_counter := by
        intro s
        by_cases hz : s.contribution_counter (indice nj nk d.1 d.2.1 d.2.2) ≠ 0 <;>
          simp [hz]
      rw [normFold_at ni nj nk l _ c hcl hnd']
      have hic : ∀ (s : St),
          ((fun s (c : Nat × Nat × Nat) =>
            let idx := indice nj nk c.1 c.2.1 c.2.2
            if s.contribution_counter idx ≠ 0 then
              { s with
                interp_values := upd s.interp_values idx
                  (s.interp_values idx / s.contribution_counter idx) }
            else s) s d).interp_values (indice nj nk c.1 c.2.1 c.2.2) =
            s.interp_values (indice nj nk c.1 c.2.1 c.2.2) := by
        intro s
        by_cases hz : s.contribution_counter (indice nj nk d.1 d.2.1 d.2.2) ≠ 0 <;>
          simp [hz, upd, Ne.symm hdc]
      rw [step_counter st, hic st]

theorem normalize_counter (ni nj nk : Nat) (st : St) :
    (normalize ni nj nk st).contribution_counter = st.contribution_counter :=
  normFold_counter ni nj nk (cells ni nj nk) st

theorem normalize_frame (ni nj nk : Nat) (st : St) (m : Nat)
    (h : ∀ c ∈ cells ni nj nk, indice nj nk c.1 c.2.1 c.2.2 ≠ m) :
    (normalize ni nj nk st).interp_values m = st.interp_values m :=
  normFold_frame ni nj nk (cells ni nj nk) st m h

theorem normalize_at {ni nj nk i j k : Nat} (st : St) (hW : ni * nj * nk ≤ W)
    (hi : i < ni) (hj : j < nj) (hk : k < nk) :
    (normalize ni nj nk st).interp_values (indice nj nk i j k) =
      (if st.contribution_counter (indice nj nk i j k) ≠ 0 then
        st.interp_values (indice nj nk i j k) /
          st.contribution_counter (indice nj nk i j k)
      else st.interp_values (indice nj nk i j k)) :=
  normFold_at ni nj nk (cells ni nj nk) st (i, j, k)
    (mem_cells.2 ⟨hi, hj, hk⟩) (cells_idx_nodup hW)

theorem griddata_def (known_coords : List (ℚ × ℚ × ℚ)) (known_values : List ℚ)
    (ni nj nk : Nat) (st : St) :
    griddata known_coords known_values ni nj nk st =
      (readKnown known_coords known_values).bind fun kps =>
        (scatter (build kps.length 0 kps) ni nj nk st).map (normalize ni nj nk) := by
  unfold griddata
  cases hr : readKnown known_coords known_values with
  | none => rfl
  | some kps =>
    simp only [Option.bind_eq_bind, Option.some_bind]
    cases hs : scatter (build kps.length 0 kps) ni nj nk st <;> rfl

/-! ### kd-tree: basic facts -/

theorem axis_le_distance_sq (ax : Fin 3) (q p : Pt) :
    (axisCoord ax q - axisCoord ax p) ^ 2 ≤ distance_sq q p := by
  fin_cases ax <;>
    simp only [axisCoord, distance_sq, Fin.isValue] <;>
    norm_num <;>
    nlinarith [sq_nonneg (q.x - p.x), sq_nonneg (q.y - p.y), sq_nonneg (q.z - p.z)]

theorem nearestBest_isSome (q : Pt) (b : Option (KP × ℚ)) (kp : KP) :
    ∃ r, nearestBest q b kp = some r := by
  unfold nearestBest
  cases b with
  | none => exact ⟨_, rfl⟩
  | some p =>
    obtain ⟨bkp, bd⟩ := p
    dsimp only
    split <;> exact ⟨_, rfl⟩

theorem nearestBest_dist {q : Pt} {b : Option (KP × ℚ)} {kp : KP}
    (hb : ∀ x d, b = some (x, d) → d = distance_sq q x.pt) :
    ∀ x d, nearestBest q b kp = some (x, d) → d = distance_sq q x.pt := by
  intro x d h
  unfold nearestBest at h
  cases b with
  | none =>
    dsimp only at h
    simp only [Option.some.injEq, Prod.mk.injEq] at h
    obtain ⟨h1, h2⟩ := h
    rw [← h1, ← h2]
  | some p =>
    obtain ⟨bkp, bd⟩ := p
    dsimp only at h
    split at h
    · simp only [Option.some.injEq, Prod.mk.injEq] at h
      obtain ⟨h1, h2⟩ := h
      rw [← h1, ← h2]
    · simp only [Option.some.injEq, Prod.mk.injEq] at h
      obtain ⟨h1, h2⟩ := h
      rw [← h1, ← h2]
      exact hb bkp bd rfl

theorem nearestBest_mem {q : Pt} {b : Option (KP × ℚ)} {kp : KP} :
    ∀ r, nearestBest q b kp = some r → r.1 = kp ∨ b = some r := by
  intro r h
  unfold nearestBest at h
  cases b with
  | none => exact Or.inl (congrArg Prod.fst (Option.some.inj h)).symm
  | some p =>
    obtain ⟨bkp, bd⟩ := p
    dsimp only at h
    split at h
    · exact Or.inl (congrArg Prod.fst (Option.some.inj h)).symm
    · exact Or.inr h

theorem nearestBest_le_kp {q : Pt} {b : Option (KP × ℚ)} {kp : KP} :
    ∀ r, nearestBest q b kp = some r → r.2 ≤ distance_sq q kp.pt := by
  intro r h
  unfold nearestBest at h
  cases b with
  | none =>
    rw [(congrArg Prod.snd (Option.some.inj h)).symm]
  | some p =>
    obtain ⟨bkp, bd⟩ := p
    dsimp only at h
    split at h
    · rw [(congrArg Prod.snd (Option.some.inj h)).symm]
    · rename_i hlt
      rw [(congrArg Prod.snd (Option.some.inj h)).symm]
      exact le_of_not_lt hlt

theorem nearestBest_le_b {q : Pt} {b : Option (KP × ℚ)} {kp : KP} :
    ∀ r x d, nearestBest q b kp = some r → b = some (x, d) → r.2 ≤ d := by
  intro r x d h hbd
  subst hbd
  unfold nearestBest at h
  dsimp only at h
  split at h
  · rename_i hlt
    rw [(congrArg Prod.snd (Option.some.inj h)).symm]
    exact le_of_lt hlt
  · rename_i hlt
    rw [(congrArg Prod.snd (Option.some.inj h)).symm]

theorem nearestAux_some (q : Pt) :
    ∀ (t : Kd) (b : Option (KP × ℚ)), (t = .leaf → ∃ r, b = some r) →
      ∃ res, nearestAux t q b = some res
  | .leaf, b, hb => by simpa [nearestAux] using hb rfl
  | .node ax kp l r, b, _ => by
    simp only [nearestAux]
    obtain ⟨r1, hr1⟩ := nearestBest_isSome q b kp
    by_cases hqs : axisCoord ax q ≤ axisCoord ax kp.pt
    · rw [if_pos hqs]
      obtain ⟨res1, hres1⟩ := nearestAux_some q l (nearestBest q b kp) (fun _ => ⟨r1, hr1⟩)
      obtain ⟨bkp, bd⟩ := res1
      simp only [hres1]
      by_cases hpr : (axisCoord ax q - axisCoord ax kp.pt) ^ 2 ≤ bd
      · rw [if_pos hpr]
        exact nearestAux_some q r _ (fun _ => ⟨_, rfl⟩)
      · rw [if_neg hpr]
        exact ⟨_, rfl⟩
    · rw [if_neg hqs]
      obtain ⟨res1, hres1⟩ := nearestAux_some q r (nearestBest q b kp) (fun _ => ⟨r1, hr1⟩)
      obtain ⟨bkp, bd⟩ := res1
      simp only [hres1]
      by_cases hpr : (axisCoord ax q - axisCoord ax kp.pt) ^ 2 ≤ bd
      · rw [if_pos hpr]
        exact nearestAux_some q l _ (fun _ => ⟨_, rfl⟩)
      · rw [if_neg hpr]
        exact ⟨_, rfl⟩

theorem nearestAux_spec (q : Pt) :
    ∀ (t : Kd), t.inv → ∀ (b : Option (KP × ℚ)),
      (∀ x d, b = some (x, d) → d = distance_sq q x.pt) →
      ∀ res, nearestAux t q b = some res →
        res.2 = distance_sq q res.1.pt ∧
        (res.1 ∈ t.toList ∨ b = some res) ∧
        (∀ p ∈ t.toList, res.2 ≤ distance_sq q p.pt) ∧
        (∀ x d, b = some (x, d) → res.2 ≤ d)
  | .leaf, _, b, hb, res, h => by
    rw [nearestAux] at h
    refine ⟨hb res.1 res.2 h, Or.inr h, ?_, ?_⟩
    · intro p hp
      exact absurd hp (by simp [Kd.toList])
    · intro x d hbd
      rw [h] at hbd
      obtain ⟨h1, h2⟩ := Prod.ext_iff.1 (Option.some.inj hbd)
      exact le_of_eq h2
  | .node ax kp l r, hinv, b, hb, res, h => by
    obtain ⟨hl_le, hr_ge, hinv_l, hinv_r⟩ := hinv
    simp only [nearestAux] at h
    obtain ⟨r1, hr1⟩ := nearestBest_isSome q b kp
    have hb1 : ∀ x d, nearestBest q b kp = some (x, d) →
        d = distance_sq q x.pt := nearestBest_dist hb
    have hmem_node : ∀ x : KP, (x = kp ∨ x ∈ l.toList ∨ x ∈ r.toList) →
        x ∈ Kd.toList (.node ax kp l r) := by
      intro x hx
      simp only [Kd.toList, List.mem_cons, List.mem_append]
      tauto
    by_cases hqs : axisCoord ax q ≤ axisCoord ax kp.pt
    · rw [if_pos hqs] at h
      obtain ⟨⟨bkp, bd⟩, hbl⟩ := nearestAux_some q l (nearestBest q b kp) (fun _ => ⟨r1, hr1⟩)
      simp only [hbl] at h
      have IHl := nearestAux_spec q l hinv_l (nearestBest q b kp) hb1 (bkp, bd) hbl
      have hbd_r1 : bd ≤ r1.2 := IHl.2.2.2 r1.1 r1.2 (by rw [hr1])
      have hr1_kp : r1.2 ≤ distance_sq q kp.pt := nearestBest_le_kp r1 hr1
      have hb2 : ∀ x d, (some (bkp, bd) : Option (KP × ℚ)) = some (x, d) →
          d = distance_sq q x.pt := by
        intro x d hxd
        obtain ⟨h1, h2⟩ := Prod.ext_iff.1 (Option.some.inj hxd)
        dsimp only at h1 h2
        rw [← h1, ← h2]
        exact IHl.1
      have hmem_lb : (bkp, bd).1 ∈ l.toList ∨ nearestBest q b kp = some (bkp, bd) :=
        IHl.2.1
      by_cases hpr : (axisCoord ax q - axisCoord ax kp.pt) ^ 2 ≤ bd
      · rw [if_pos hpr] at h
        have IHr := nearestAux_spec q r hinv_r (some (bkp, bd)) hb2 res h
        have hres_bd : res.2 ≤ bd := IHr.2.2.2 bkp bd rfl
        refine ⟨IHr.1, ?_, ?_, ?_⟩
        · rcases IHr.2.1 with hmem | heq
          · exact Or.inl (hmem_node res.1 (Or.inr (Or.inr hmem)))
          · obtain ⟨h1, h2⟩ := Prod.ext_iff.1 (Option.some.inj heq)
            dsimp only at h1 h2
            rcases hmem_lb with hmeml | hbb
            · exact Or.inl (hmem_node res.1 (Or.inr (Or.inl (h1 ▸ hmeml))))
            · rcases nearestBest_mem (bkp, bd) hbb with hkp | hbsome
              · exact Or.inl (hmem_node res.1 (Or.inl (by rw [← h1]; exact hkp)))
              · right
                rw [hbsome, heq]
        · intro p hp
          simp only [Kd.toList, List.mem_cons, List.mem_append] at hp
          rcases hp with rfl | hp | hp
          · exact le_trans hres_bd (le_trans hbd_r1 hr1_kp)
          · exact le_trans hres_bd (IHl.2.2.1 p hp)
          · exact IHr.2.2.1 p hp
        · intro x d hbd
          exact le_trans hres_bd (le_trans hbd_r1 (nearestBest_le_b r1 x d hr1 hbd))
      · rw [if_neg hpr] at h
        obtain rfl : (bkp, bd) = res := Option.some.inj h
        refine ⟨IHl.1, ?_, ?_, ?_⟩
        · rcases hmem_lb with hmeml | hbb
          · exact Or.inl (hmem_node bkp (Or.inr (Or.inl hmeml)))
          · rcases nearestBest_mem (bkp, bd) hbb with hkp | hbsome
            · exact Or.inl (hmem_node bkp (Or.inl hkp))
            · exact Or.inr hbsome
        · intro p hp
          simp only [Kd.toList, List.mem_cons, List.mem_append] at hp
          rcases hp with rfl | hp | hp
          · exact le_trans hbd_r1 hr1_kp
          · exact IHl.2.2.1 p hp
          · have hpa : axisCoord ax kp.pt ≤ axisCoord ax p.pt := hr_ge p hp
            have hgap : (axisCoord ax q - axisCoord ax kp.pt) ^ 2 ≤
                (axisCoord ax q - axisCoord ax p.pt) ^ 2 := by nlinarith
            have haxis := axis_le_distance_sq ax q p.pt
            have : bd < (axisCoord ax q - axisCoord ax kp.pt) ^ 2 := lt_of_not_le hpr
            calc (bkp, bd).2 = bd := rfl
            _ ≤ (axisCoord ax q - axisCoord ax p.pt) ^ 2 :=
              le_of_lt (lt_of_lt_of_le this hgap)
            _ ≤ distance_sq q p.pt := haxis
        · intro x d hbd
          exact le_trans hbd_r1 (nearestBest_le_b r1 x d hr1 hbd)
    · rw [if_neg hqs] at h
      have hsq : axisCoord ax kp.pt ≤ axisCoord ax q := le_of_not_le hqs
      obtain ⟨⟨bkp, bd⟩, hbl⟩ := nearestAux_some q r (nearestBest q b kp) (fun _ => ⟨r1, hr1⟩)
      simp only [hbl] at h
      have IHr := nearestAux_spec q r hinv_r (nearestBest q b kp) hb1 (bkp, bd) hbl
      have hbd_r1 : bd ≤ r1.2 := IHr.2.2.2 r1.1 r1.2 (by rw [hr1])
      have hr1_kp : r1.2 ≤ distance_sq q kp.pt := nearestBest_le_kp r1 hr1
      have hb2 : ∀ x d, (some (bkp, bd) : Option (KP × ℚ)) = some (x, d) →
          d = distance_sq q x.pt := by
        intro x d hxd
        obtain ⟨h1, h2⟩ := Prod.ext_iff.1 (Option.some.inj hxd)
        dsimp only at h1 h2
        rw [← h1, ← h2]
        exact IHr.1
      have hmem_rb : (bkp, bd).1 ∈ r.toList ∨ nearestBest q b kp = some (bkp, bd) :=
        IHr.2.1
      by_cases hpr : (axisCoord ax q - axisCoord ax kp.pt) ^ 2 ≤ bd
      · rw [if_pos hpr] at h
        have IHl := nearestAux_spec q l hinv_l (some (bkp, bd)) hb2 res h
        have hres_bd : res.2 ≤ bd := IHl.2.2.2 bkp bd rfl
        refine ⟨IHl.1, ?_, ?_, ?_⟩
        · rcases IHl.2.1 with hmem | heq
          · exact Or.inl (hmem_node res.1 (Or.inr (Or.inl hmem)))
          · obtain ⟨h1, h2⟩ := Prod.ext_iff.1 (Option.some.inj heq)
            dsimp only at h1 h2
            rcases hmem_rb with hmemr | hbb
            · exact Or.inl (hmem_node res.1 (Or.inr (Or.inr (h1 ▸ hmemr))))
            · rcases nearestBest_mem (bkp, bd) hbb with hkp | hbsome
              · exact Or.inl (hmem_node res.1 (Or.inl (by rw [← h1]; exact hkp)))
              · right
                rw [hbsome, heq]
        · intro p hp
          simp only [Kd.toList, List.mem_cons, List.mem_append] at hp
          rcases hp with rfl | hp | hp
          · exact le_trans hres_bd (le_trans hbd_r1 hr1_kp)
          · exact IHl.2.2.1 p hp
          · exact le_trans hres_bd (IHr.2.2.1 p hp)
        · intro x d hbd
          exact le_trans hres_bd (le_trans hbd_r1 (nearestBest_le_b r1 x d hr1 hbd))
      · rw [if_neg hpr] at h
        obtain rfl : (bkp, bd) = res := Option.some.inj h
        refine ⟨IHr.1, ?_, ?_, ?_⟩
        · rcases hmem_rb with hmemr | hbb
          · exact Or.inl (hmem_node bkp (Or.inr (Or.inr hmemr)))
          · rcases nearestBest_mem (bkp, bd) hbb with hkp | hbsome
            · exact Or.inl (hmem_node bkp (Or.inl hkp))
            · exact Or.inr hbsome
        · intro p hp
          simp only [Kd.toList, List.mem_cons, List.mem_append] at hp
          rcases hp with rfl | hp | hp
          · exact le_trans hbd_r1 hr1_kp
          · have hpa : axisCoord ax p.pt ≤ axisCoord ax kp.pt := hl_le p hp
            have hgap : (axisCoord ax q - axisCoord ax kp.pt) ^ 2 ≤
                (axisCoord ax q - axisCoord ax p.pt) ^ 2 := by nlinarith
            have haxis := axis_le_distance_sq ax q p.pt
            have : bd < (axisCoord ax q - axisCoord ax kp.pt) ^ 2 := lt_of_not_le hpr
            calc (bkp, bd).2 = bd := rfl
            _ ≤ (axisCoord ax q - axisCoord ax p.pt) ^ 2 :=
              le_of_lt (lt_of_lt_of_le this hgap)
            _ ≤ distance_sq q p.pt := haxis
          · exact IHr.2.2.1 p hp
        · intro x d hbd
          exact le_trans hbd_r1 (nearestBest_le_b r1 x d hr1 hbd)

/-! ### kd-tree: build -/

theorem build_node_bounds {ax : Fin 3} {sorted : List KP} {m : Nat} {med : KP}
    (hs : List.Sorted (axLe ax) sorted) (hm : sorted[m]? = some med) :
    (∀ p ∈ sorted.take m, axisCoord ax p.pt ≤ axisCoord ax med.pt) ∧
    (∀ p ∈ sorted.drop (m + 1), axisCoord ax med.pt ≤ axisCoord ax p.pt) := by
  obtain ⟨hlt, hget⟩ := List.getElem?_eq_some_iff.1 hm
  constructor
  · intro p hp
    have hmd : med ∈ sorted.drop m := by
      rw [List.drop_eq_getElem_cons hlt, hget]
      exact List.mem_cons_self _ _
    exact hs.rel_of_mem_take_of_mem_drop hp hmd
  · intro p hp
    have hmt : med ∈ sorted.take (m + 1) := by
      rw [List.take_succ, hm]
      exact List.mem_append.2 (Or.inr (by simp))
    exact hs.rel_of_mem_take_of_mem_drop hmt hp

theorem toList_build_subset : ∀ (fuel depth : Nat) (pts : List KP),
    ∀ p ∈ (build fuel depth pts).toList, p ∈ pts
  | 0, _, _, p, hp => absurd hp (by simp [build, Kd.toList])
  | fuel + 1, depth, pts, p, hp => by
    simp only [build] at hp
    split at hp
    · exact absurd hp (by simp [Kd.toList])
    · rename_i med hm
      obtain ⟨hlt, hget⟩ := List.getElem?_eq_some_iff.1 hm
      simp only [Kd.toList, List.mem_cons, List.mem_append] at hp
      have hsub : ∀ x, x ∈ List.insertionSort (axLe (axOf depth)) pts → x ∈ pts :=
        fun x hx => (List.perm_insertionSort _ pts).subset hx
      rcases hp with rfl | hp | hp
      · exact hsub p (hget ▸ List.getElem_mem hlt)
      · exact hsub p (List.mem_of_mem_take (toList_build_subset fuel _ _ p hp))
      · exact hsub p (List.mem_of_mem_drop (toList_build_subset fuel _ _ p hp))

theorem build_inv : ∀ (fuel depth : Nat) (pts : List KP), (build fuel depth pts).inv
  | 0, _, _ => trivial
  | fuel + 1, depth, pts => by
    simp only [build]
    split
    · trivial
    · rename_i med hm
      have hs : List.Sorted (axLe (axOf depth)) (List.insertionSort (axLe (axOf depth)) pts) :=
        List.sorted_insertionSort (axLe (axOf depth)) pts
      have hbounds := build_node_bounds hs hm
      refine ⟨?_, ?_, build_inv fuel (depth + 1) _, build_inv fuel (depth + 1) _⟩
      · intro p hp
        exact hbounds.1 p (toList_build_subset fuel _ _ p hp)
      · intro p hp
        exact hbounds.2 p (toList_build_subset fuel _ _ p hp)

theorem toList_build_perm : ∀ (fuel depth : Nat) (pts : List KP),
    pts.length ≤ fuel → (build fuel depth pts).toList.Perm pts
  | 0, _, pts, h => by
    have hnil : pts = [] := List.length_eq_zero.1 (Nat.le_zero.1 h)
    subst hnil
    simp [build, Kd.toList]
  | fuel + 1, depth, pts, h => by
    have hlen : (List.insertionSort (axLe (axOf depth)) pts).length = pts.length :=
      (List.perm_insertionSort (axLe (axOf depth)) pts).length_eq
    simp only [build]
    split
    · rename_i hm
      rw [List.getElem?_eq_none_iff] at hm
      have hzero : pts.length = 0 := by omega
      have hnil : pts = [] := List.length_eq_zero.1 hzero
      subst hnil
      simp [Kd.toList]
    · rename_i med hm
      obtain ⟨hlt, hget⟩ := List.getElem?_eq_some_iff.1 hm
      have htake : ((List.insertionSort (axLe (axOf depth)) pts).take
          ((List.insertionSort (axLe (axOf depth)) pts).length / 2)).length ≤ fuel := by
        rw [List.length_take]
        omega
      have hdrop : ((List.insertionSort (axLe (axOf depth)) pts).drop
          ((List.insertionSort (axLe (axOf depth)) pts).length / 2 + 1)).length ≤ fuel := by
        rw [List.length_drop]
        omega
      have pl := toList_build_perm fuel (depth + 1) _ htake
      have pr := toList_build_perm fuel (depth + 1) _ hdrop
      simp only [Kd.toList]
      refine ((List.Perm.cons med (pl.append pr)).trans ?_).trans
        (List.perm_insertionSort (axLe (axOf depth)) pts)
      refine List.perm_middle.symm.trans ?_
      rw [← hget, ← List.drop_eq_getElem_cons hlt, List.take_append_drop]

/-! ### kd-tree: the query matches the linear scan -/

theorem foldl_min_eq : ∀ (l : List ℚ) (a d : ℚ), (d = a ∨ d ∈ l) → d ≤ a →
    (∀ x ∈ l, d ≤ x) → l.foldl min a = d
  | [], _, d, hmem, hle, _ => by
    rcases hmem with rfl | hx
    · rfl
    · exact absurd hx (List.not_mem_nil d)
  | x :: l, a, d, hmem, hle, hall => by
    rw [List.foldl_cons]
    have hdx : d ≤ x := hall x (List.mem_cons_self x l)
    apply foldl_min_eq l (min a x) d
    · rcases hmem with rfl | hx
      · exact Or.inl (min_eq_left hdx).symm
      · rcases List.mem_cons.1 hx with rfl | hl
        · exact Or.inl (min_eq_right hle).symm
        · exact Or.inr hl
    · exact le_min hle hdx
    · exact fun y hy => hall y (List.mem_cons_of_mem x hy)

theorem linearScanMinDist_eq {q : Pt} {pts : List KP} {kp : KP} {d : ℚ}
    (hkp : kp ∈ pts) (hd : d = distance_sq q kp.pt)
    (hmin : ∀ p ∈ pts, d ≤ distance_sq q p.pt) :
    linearScanMinDist q pts = some d := by
  cases pts with
  | nil => exact absurd hkp (List.not_mem_nil kp)
  | cons p0 rest =>
    show some ((rest.map fun p => distance_sq q p.pt).foldl min
      (distance_sq q p0.pt)) = some d
    refine congrArg some (foldl_min_eq _ _ _ ?_ ?_ ?_)
    · rcases List.mem_cons.1 hkp with rfl | hmem
      · exact Or.inl hd
      · exact Or.inr (by
          rw [hd]
          exact List.mem_map_of_mem _ hmem)
    · exact hmin p0 (List.mem_cons_self p0 rest)
    · intro x hx
      rw [List.mem_map] at hx
      obtain ⟨p, hp, rfl⟩ := hx
      exact hmin p (List.mem_cons_of_mem p0 hp)

theorem nearest_build_spec (pts : List KP) (q : Pt) (h : pts ≠ []) :
    ∃ kp d, nearestAux (build pts.length 0 pts) q none = some (kp, d) ∧
      kp ∈ pts ∧ d = distance_sq q kp.pt ∧
      ∀ p ∈ pts, d ≤ distance_sq q p.pt := by
  have hperm := toList_build_perm pts.length 0 pts (le_refl _)
  have hne : build pts.length 0 pts ≠ .leaf := by
    intro hleaf
    rw [hleaf] at hperm
    exact h hperm.symm.eq_nil
  obtain ⟨res, hres⟩ := nearestAux_some q (build pts.length 0 pts) none
    (fun hleaf => absurd hleaf hne)
  have hspec := nearestAux_spec q (build pts.length 0 pts)
    (build_inv pts.length 0 pts) none (fun x d hxd => absurd hxd (by simp))
    res hres
  refine ⟨res.1, res.2, hres, ?_, hspec.1, ?_⟩
  · rcases hspec.2.1 with hmem | habs
    · exact hperm.subset hmem
    · exact absurd habs (by simp)
  · intro p hp
    exact hspec.2.2.1 p (hperm.mem_iff.2 hp)

/-! ### Assembling the phases -/

theorem collectLogs_writesAt_target {tree : Kd} {ni nj nk : Nat}
    (hW : ni * nj * nk ≤ W) (i j k : Nat)
    (hi : i < ni) (hj : j < nj) (hk : k < nk) {ws : List (Nat × ℚ)}
    (h : allWrites tree ni nj nk = some ws) :
    ∃ wc, cellWrites tree ni nj nk i j k = some wc ∧
      writesAt ws (indice nj nk i j k) = wc.map Prod.snd := by
  have hmem : (i, j, k) ∈ cells ni nj nk := mem_cells.2 ⟨hi, hj, hk⟩
  obtain ⟨l1, l2, hsplit⟩ := List.append_of_mem hmem
  have hnd : (cells ni nj nk).Nodup := cells_nodup ni nj nk
  rw [hsplit] at hnd
  have hnotl1 : (i, j, k) ∉ l1 := by
    intro hmem1
    have := (List.nodup_append.1 hnd).2.2
    exact this hmem1 (List.mem_cons_self _ _)
  have hnotl2 : (i, j, k) ∉ l2 :=
    (List.nodup_cons.1 (List.nodup_append.1 hnd).2.1).1
  unfold allWrites at h
  rw [hsplit, collectLogs_append] at h
  cases h1 : collectLogs tree ni nj nk l1 with
  | none => rw [h1] at h; exact absurd h (by simp)
  | some a =>
    rw [h1] at h
    simp only [Option.some_bind] at h
    rw [collectLogs] at h
    cases hwc : cellWrites tree ni nj nk i j k with
    | none => rw [hwc] at h; exact absurd h (by simp)
    | some wc =>
      rw [hwc] at h
      simp only at h
      cases h2 : collectLogs tree ni nj nk l2 with
      | none => rw [h2] at h; exact absurd h (by simp)
      | some b2 =>
        rw [h2] at h
        simp only [Option.map_some', Option.some.injEq] at h
        refine ⟨wc, rfl, ?_⟩
        rw [← h]
        rw [writesAt_append, writesAt_append]
        have hother : ∀ (l : List (Nat × Nat × Nat)) (ww : List (Nat × ℚ)),
            collectLogs tree ni nj nk l = some ww → (i, j, k) ∉ l →
            (∀ c ∈ l, c ∈ cells ni nj nk) →
            writesAt ww (indice nj nk i j k) = [] := by
          intro l ww hww hnot hsub
          apply writesAt_of_none
          intro w hw
          obtain ⟨c, hc, hidx⟩ := collectLogs_mem_idx hww w hw
          rw [hidx]
          intro heq
          have hcr := mem_cells.1 (hsub c hc)
          obtain ⟨e1, e2, e3⟩ :=
            indice_inj hW hcr.1 hcr.2.1 hcr.2.2 hi hj hk heq
          apply hnot
          have : c = (i, j, k) := by
            obtain ⟨ci, cj, ck⟩ := c
            simp only [Prod.mk.injEq]
            exact ⟨e1, e2, e3⟩
          rw [← this]
          exact hc
        have hsub1 : ∀ c ∈ l1, c ∈ cells ni nj nk := by
          intro c hc
          rw [hsplit]
          exact List.mem_append.2 (Or.inl hc)
        have hsub2 : ∀ c ∈ l2, c ∈ cells ni nj nk := by
          intro c hc
          rw [hsplit]
          exact List.mem_append.2 (Or.inr (List.mem_cons_of_mem _ hc))
        rw [hother l1 a h1 hnotl1 hsub1, hother l2 b2 h2 hnotl2 hsub2,
          writesAt_of_all (cellWrites_idx hwc)]
        simp

theorem allWrites_some_of_nonempty (pts : List KP) (hpts : pts ≠ [])
    (tree : Kd) (htree : tree = build pts.length 0 pts) (ni nj nk : Nat) :
    ∃ ws, allWrites tree ni nj nk = some ws := by
  apply collectLogs_isSome
  intro c _
  apply cellWrites_isSome
  obtain ⟨kp, d, hres, _⟩ :=
    nearest_build_spec pts ⟨(c.1 : ℚ), (c.2.1 : ℚ), (c.2.2 : ℚ)⟩ hpts
  exact ⟨(kp, d), by rw [htree]; exact hres⟩

theorem griddata_some {known_coords : List (ℚ × ℚ × ℚ)} {known_values : List ℚ}
    {ni nj nk : Nat} {st st' : St}
    (h : griddata known_coords known_values ni nj nk st = some st') :
    ∃ kps ws, readKnown known_coords known_values = some kps ∧
      allWrites (build kps.length 0 kps) ni nj nk = some ws ∧
      st' = normalize ni nj nk (applyWrites st ws) := by
  rw [griddata_def] at h
  cases hr : readKnown known_coords known_values with
  | none => rw [hr] at h; exact absurd h (by simp)
  | some kps =>
    rw [hr] at h
    simp only [Option.some_bind] at h
    rw [scatter_eq_allWrites] at h
    cases hw : allWrites (build kps.length 0 kps) ni nj nk with
    | none => rw [hw] at h; exact absurd h (by simp)
    | some ws =>
      rw [hw] at h
      simp only [Option.map_some', Option.some.injEq] at h
      exact ⟨kps, ws, rfl, hw, h.symm⟩

/-! ### The claims -/

/-- C1: the claim says each in-sphere candidate cell gets the nearest value
added and the counter bumped *at the candidate's position* `(i',j',k')`.
The source instead writes both at flat index `nj*nk*i + nk*j + k` of the
source cell `(i,j,k)` (line 129).  With one known point `(0,0,0) ↦ 10` on a
`2 × 1 × 1` grid, cell `(1,0,0)` has two in-sphere candidates `(0,0,0)` and
`(1,0,0)`, yet both of its writes target its own flat index `1`, so the
final counters are `(1, 2)` instead of the claimed `(2, 1)`. -/
theorem c1_scatter_writes_at_source_cell :
    cellWrites (build 1 0 [⟨⟨0, 0, 0⟩, 10⟩]) 2 1 1 1 0 0 =
      some [(1, 10), (1, 10)] ∧
    (griddata [(0, 0, 0)] [10] 2 1 1 st0).map
      (fun st => (st.contribution_counter 0, st.contribution_counter 1)) =
      some (1, 2) := by
  constructor <;> decide

/-- C2: the claim says the lower region-of-interest bound saturates at 0,
`max(0, i − r)`, and never wraps.  The source computes `i - roi_radius` in
`std::size_t`, which wraps: for `i = 0`, `r = 1`, `ni = 3` the bound
`clamp(i - r, 0, ni - 1)` is `2` (= `ni − 1`), not the claimed `0`. -/
theorem c2_roi_lower_bound_wraps :
    clamp (wrapSub 0 1) 0 (3 - 1) = 2 := by decide

/-- C3: the claim says that with exactly one known point every grid cell's
counter ends at least 1.  Because the wrapped lower bound can exceed the
upper bound, the region-of-interest box can be empty and a cell can receive
no contribution at all: with the single known point `(3,0,0) ↦ 7` on a
`5 × 1 × 1` grid, cells `(0,0,0)` and `(1,0,0)` end with counter 0. -/
theorem c3_single_point_counter_can_be_zero :
    (griddata [(3, 0, 0)] [7] 5 1 1 st0).map
      (fun st => (st.contribution_counter (indice 1 1 0 0 0),
        st.contribution_counter (indice 1 1 1 0 0))) = some (0, 0) := by decide

/-- C4: the claim says an empty known-point set is a successful no-op.  The
engine queries the index for every grid cell and dereferences the result
without any emptiness check; on an empty index the query yields NoData
(modelled: `none`) and the dereference is undefined, so the embedded run
fails instead of returning successfully. -/
theorem c4_empty_known_points_not_a_noop :
    griddata [] [] 1 1 1 st0 = none := rfl

/-- C5: if the known-coordinate and known-value sequences differ in length,
or the two output buffers differ in shape, the call is rejected before any
processing begins.  This holds of the spec-modelled host-language wrapper
(the repository's validation layer is not under `src/`): it returns the
`ShapeMismatch` error without invoking the engine, so neither buffer is
touched. -/
theorem c5_shape_mismatch_rejected (known_coords : List (ℚ × ℚ × ℚ))
    (known_values : List ℚ) (outShape cntShape : Nat × Nat × Nat) (st : St)
    (h : known_coords.length ≠ known_values.length ∨ outShape ≠ cntShape) :
    interpolate known_coords known_values outShape cntShape st =
      .error .shapeMismatch := by
  unfold interpolate
  rw [if_pos h]

theorem c5_witness :
    interpolate [(0, 0, 0)] [] (1, 1, 1) (1, 1, 1) st0 = .error .shapeMismatch :=
  c5_shape_mismatch_rejected [(0, 0, 0)] [] (1, 1, 1) (1, 1, 1) st0
    (Or.inl (by decide))

/-- C6: the normalization pass visits every grid cell exactly once: where
the counter is nonzero the accumulator is divided by it, where the counter
is zero the accumulator entry is left unchanged; the counter buffer itself
is never modified.  Stated pointwise at each cell's flat index (the flat
indices of distinct cells are distinct whenever the buffer extent fits in
`std::size_t`). -/
theorem c6_normalization_pointwise (ni nj nk i j k : Nat) (st : St)
    (hW : ni * nj * nk ≤ W) (hi : i < ni) (hj : j < nj) (hk : k < nk) :
    (normalize ni nj nk st).contribution_counter = st.contribution_counter ∧
    (normalize ni nj nk st).interp_values (indice nj nk i j k) =
      (if st.contribution_counter (indice nj nk i j k) ≠ 0 then
        st.interp_values (indice nj nk i j k) /
          st.contribution_counter (indice nj nk i j k)
      else st.interp_values (indice nj nk i j k)) :=
  ⟨normalize_counter ni nj nk st, normalize_at st hW hi hj hk⟩

theorem c6_witness :
    (normalize 1 1 1 ⟨fun _ => 6, fun _ => 2⟩).interp_values (indice 1 1 0 0 0) = 3 ∧
    (normalize 1 1 1 ⟨fun _ => 0, fun _ => 0⟩).interp_values (indice 1 1 0 0 0) = 0 := by
  constructor
  · rw [(c6_normalization_pointwise 1 1 1 0 0 0 ⟨fun _ => 6, fun _ => 2⟩
      (by decide) (by decide) (by decide) (by decide)).2]
    decide
  · rw [(c6_normalization_pointwise 1 1 1 0 0 0 ⟨fun _ => 0, fun _ => 0⟩
      (by decide) (by decide) (by decide) (by decide)).2]
    decide

/-- C7: after any call that succeeds on zero-initialized counters, every
contribution-counter entry is a non-negative integer (a natural number
count), and every cell whose accumulator started at zero and whose counter
is nonzero ends with exactly the arithmetic mean — sum divided by count —
of the values the scatter phase added at its flat index. -/
theorem c7_counter_natural_and_mean (known_coords : List (ℚ × ℚ × ℚ))
    (known_values : List ℚ) (ni nj nk : Nat) (interp0 : Nat → ℚ) (st' : St)
    (hW : ni * nj * nk ≤ W)
    (h : griddata known_coords known_values ni nj nk ⟨interp0, fun _ => 0⟩ =
      some st') :
    (∀ m, ∃ n : ℕ, st'.contribution_counter m = (n : ℚ)) ∧
    (∀ i j k, i < ni → j < nj → k < nk →
      interp0 (indice nj nk i j k) = 0 →
      st'.contribution_counter (indice nj nk i j k) ≠ 0 →
      ∃ ws, gridWrites known_coords known_values ni nj nk = some ws ∧
        st'.interp_values (indice nj nk i j k) =
          (writesAt ws (indice nj nk i j k)).sum /
            ((writesAt ws (indice nj nk i j k)).length : ℚ)) := by
  obtain ⟨kps, ws, hkps, hws, hst⟩ := griddata_some h
  have hcnt : ∀ m, st'.contribution_counter m =
      ((writesAt ws m).length : ℚ) := by
    intro m
    rw [hst, normalize_counter, applyWrites_counter]
    simp
  refine ⟨fun m => ⟨(writesAt ws m).length, hcnt m⟩, ?_⟩
  intro i j k hi hj hk hzero hne
  refine ⟨ws, ?_, ?_⟩
  · simp only [gridWrites, hkps, Option.bind_eq_bind, Option.some_bind]
    exact hws
  · have hcne : (applyWrites ⟨interp0, fun _ => 0⟩ ws).contribution_counter
        (indice nj nk i j k) ≠ 0 := by
      rw [← normalize_counter ni nj nk, ← hst]
      exact hne
    rw [hst, normalize_at _ hW hi hj hk, if_pos hcne, applyWrites_interp,
      applyWrites_counter]
    dsimp only
    rw [hzero, zero_add, zero_add]

theorem c7_witness :
    (griddata [(0, 0, 0)] [5] 1 1 1 ⟨fun _ => 0, fun _ => 0⟩).map
      (fun st => (st.interp_values 0, st.contribution_counter 0)) =
      some (5, 1) := by
  have hs : (griddata [(0, 0, 0)] [5] 1 1 1 ⟨fun _ => 0, fun _ => 0⟩).isSome := by
    decide
  obtain ⟨st', hg⟩ := Option.isSome_iff_exists.1 hs
  have hmain := c7_counter_natural_and_mean [(0, 0, 0)] [5] 1 1 1
    (fun _ => 0) st' (by decide) hg
  have hc : (griddata [(0, 0, 0)] [5] 1 1 1 ⟨fun _ => 0, fun _ => 0⟩).map
      (fun st => st.contribution_counter 0) = some 1 := by decide
  rw [hg] at hc
  simp only [Option.map_some', Option.some.injEq] at hc
  have hw : gridWrites [(0, 0, 0)] [5] 1 1 1 = some [(0, 5)] := by decide
  have hidx : indice 1 1 0 0 0 = 0 := by decide
  obtain ⟨ws, hws, hval⟩ := hmain.2 0 0 0 (by decide) (by decide) (by decide)
    (by rw [hidx]) (by rw [hidx, hc]; decide)
  rw [hw] at hws
  obtain rfl : [((0 : Nat), (5 : ℚ))] = ws := Option.some.inj hws
  rw [hidx] at hval
  rw [hg]
  simp only [Option.map_some', Option.some.injEq]
  rw [Prod.mk.injEq]
  refine ⟨?_, hc⟩
  rw [hval]
  decide

/-- C9: for any non-empty known-point set and any query, the spec-modelled
kd-tree query (`kdtree.h` is not under `src/`) returns a known point, at its
correct squared distance, and that distance equals the minimum of an
exhaustive linear scan over all known points. -/
theorem c9_nearest_matches_linear_scan (pts : List KP) (q : Pt)
    (h : pts ≠ []) :
    ∃ kp d, nearestAux (build pts.length 0 pts) q none = some (kp, d) ∧
      kp ∈ pts ∧ d = distance_sq q kp.pt ∧
      linearScanMinDist q pts = some d := by
  obtain ⟨kp, d, hres, hmem, hd, hmin⟩ := nearest_build_spec pts q h
  exact ⟨kp, d, hres, hmem, hd, linearScanMinDist_eq hmem hd hmin⟩

theorem c9_witness :
    nearestAux (build 2 0 [⟨⟨0, 0, 0⟩, 1⟩, ⟨⟨3, 0, 0⟩, 2⟩]) ⟨2, 0, 0⟩ none =
      some (⟨⟨3, 0, 0⟩, 2⟩, 1) ∧
    linearScanMinDist ⟨2, 0, 0⟩ [⟨⟨0, 0, 0⟩, 1⟩, ⟨⟨3, 0, 0⟩, 2⟩] = some 1 := by
  have heval : nearestAux (build 2 0 [⟨⟨0, 0, 0⟩, 1⟩, ⟨⟨3, 0, 0⟩, 2⟩])
      ⟨2, 0, 0⟩ none = some (⟨⟨3, 0, 0⟩, 2⟩, 1) := by decide
  refine ⟨heval, ?_⟩
  obtain ⟨kp, d, hres, _, _, hscan⟩ := c9_nearest_matches_linear_scan
    [⟨⟨0, 0, 0⟩, 1⟩, ⟨⟨3, 0, 0⟩, 2⟩] ⟨2, 0, 0⟩ (by decide)
  have hlen : ([⟨⟨0, 0, 0⟩, 1⟩, ⟨⟨3, 0, 0⟩, 2⟩] : List KP).length = 2 := rfl
  rw [hlen] at hres
  rw [hres] at heval
  obtain ⟨h1, h2⟩ := Prod.ext_iff.1 (Option.some.inj heval)
  dsimp only at h2
  rw [h2] at hscan
  exact hscan

/-- C10: every scatter write targets flat index `nj*nk*i + nk*j + k` built
from the outer loop indices, which is strictly below `ni*nj*nk` whenever
the buffer extent fits in `std::size_t`; consequently a successful call
never writes outside the buffers — every index at or beyond the extent is
left exactly as the caller provided it, in both buffers, regardless of how
the wrapped region-of-interest bounds come out. -/
theorem c10_no_out_of_bounds_writes (known_coords : List (ℚ × ℚ × ℚ))
    (known_values : List ℚ) (ni nj nk : Nat) (st st' : St)
    (hW : ni * nj * nk ≤ W)
    (h : griddata known_coords known_values ni nj nk st = some st') :
    (∀ i j k, i < ni → j < nj → k < nk →
      indice nj nk i j k < ni * nj * nk) ∧
    (∀ m, ni * nj * nk ≤ m →
      st'.interp_values m = st.interp_values m ∧
      st'.contribution_counter m = st.contribution_counter m) := by
  obtain ⟨kps, ws, hkps, hws, hst⟩ := griddata_some h
  refine ⟨fun i j k hi hj hk => indice_lt hW hi hj hk, ?_⟩
  intro m hm
  have hempty : writesAt ws m = [] := by
    apply writesAt_of_none
    intro w hw
    obtain ⟨c, hc, hidx⟩ := collectLogs_mem_idx hws w hw
    have hcr := mem_cells.1 hc
    rw [hidx]
    intro heq
    have := indice_lt hW hcr.1 hcr.2.1 hcr.2.2
    omega
  have hframe : ∀ c ∈ cells ni nj nk, indice nj nk c.1 c.2.1 c.2.2 ≠ m := by
    intro c hc
    have hcr := mem_cells.1 hc
    have := indice_lt hW hcr.1 hcr.2.1 hcr.2.2
    omega
  constructor
  · rw [hst, normalize_frame _ _ _ _ _ hframe, applyWrites_interp, hempty]
    simp [writesAt]
  · rw [hst, normalize_counter, applyWrites_counter, hempty]
    simp [writesAt]

theorem c10_witness :
    (griddata [(0, 0, 0)] [5] 1 1 1 st0).map
      (fun st => (st.interp_values 3, st.contribution_counter 3)) =
      some (0, 0) := by
  have hs : (griddata [(0, 0, 0)] [5] 1 1 1 st0).isSome := by decide
  obtain ⟨st', hg⟩ := Option.isSome_iff_exists.1 hs
  have h := (c10_no_out_of_bounds_writes [(0, 0, 0)] [5] 1 1 1 st0 st'
    (by decide) hg).2 3 (by decide)
  rw [hg]
  simp only [Option.map_some', Option.some.injEq]
  rw [Prod.mk.injEq]
  exact ⟨h.1, h.2⟩

/-- C8: the spec's example scenario on the code as written.  With known
points `(0,0,0) ↦ 10` and `(5,5,5) ↦ 20` on a zero-initialized `6 × 6 × 6`
grid: cell `(0,0,0)` finds its own position as nearest known point at
squared distance 0, the search radius is 0, its only scatter write targets
its own flat index with value 10, and after the call its accumulator holds
exactly 10 with counter 1; cell `(5,5,5)` analogously ends at 20 with
counter 1. -/
theorem c8_example_scenario :
    nearestAux (build 2 0 [⟨⟨0, 0, 0⟩, 10⟩, ⟨⟨5, 5, 5⟩, 20⟩]) ⟨0, 0, 0⟩ none =
      some (⟨⟨0, 0, 0⟩, 10⟩, 0) ∧
    ceilSqrt 0 = 0 ∧
    cellWrites (build 2 0 [⟨⟨0, 0, 0⟩, 10⟩, ⟨⟨5, 5, 5⟩, 20⟩]) 6 6 6 0 0 0 =
      some [(indice 6 6 0 0 0, 10)] ∧
    cellWrites (build 2 0 [⟨⟨0, 0, 0⟩, 10⟩, ⟨⟨5, 5, 5⟩, 20⟩]) 6 6 6 5 5 5 =
      some [(indice 6 6 5 5 5, 20)] ∧
    (griddata [(0, 0, 0), (5, 5, 5)] [10, 20] 6 6 6 st0).map
      (fun st => (st.interp_values (indice 6 6 0 0 0),
        st.contribution_counter (indice 6 6 0 0 0),
        st.interp_values (indice 6 6 5 5 5),
        st.contribution_counter (indice 6 6 5 5 5))) = some (10, 1, 20, 1) := by
  have hcw0 : cellWrites (build 2 0 [⟨⟨0, 0, 0⟩, 10⟩, ⟨⟨5, 5, 5⟩, 20⟩])
      6 6 6 0 0 0 = some [(indice 6 6 0 0 0, 10)] := by decide
  have hcw5 : cellWrites (build 2 0 [⟨⟨0, 0, 0⟩, 10⟩, ⟨⟨5, 5, 5⟩, 20⟩])
      6 6 6 5 5 5 = some [(indice 6 6 5 5 5, 20)] := by decide
  refine ⟨by decide, by decide, hcw0, hcw5, ?_⟩
  have hkps : readKnown [(0, 0, 0), (5, 5, 5)] [10, 20] =
      some [⟨⟨0, 0, 0⟩, 10⟩, ⟨⟨5, 5, 5⟩, 20⟩] := by decide
  have hlen : ([⟨⟨0, 0, 0⟩, 10⟩, ⟨⟨5, 5, 5⟩, 20⟩] : List KP).length = 2 := rfl
  obtain ⟨ws, hws⟩ := allWrites_some_of_nonempty
    [⟨⟨0, 0, 0⟩, 10⟩, ⟨⟨5, 5, 5⟩, 20⟩] (by decide) _ rfl 6 6 6
  rw [hlen] at hws
  have hgrid : griddata [(0, 0, 0), (5, 5, 5)] [10, 20] 6 6 6 st0 =
      some (normalize 6 6 6 (applyWrites st0 ws)) := by
    rw [griddata_def, hkps]
    simp only [Option.some_bind]
    rw [hlen, scatter_eq_allWrites, hws]
    rfl
  obtain ⟨wc0, hwc0, hat0⟩ := collectLogs_writesAt_target (by decide) 0 0 0
    (by decide) (by decide) (by decide) hws
  obtain ⟨wc5, hwc5, hat5⟩ := collectLogs_writesAt_target (by decide) 5 5 5
    (by decide) (by decide) (by decide) hws
  obtain rfl : [((indice 6 6 0 0 0 : Nat), (10 : ℚ))] = wc0 :=
    Option.some.inj (hcw0.symm.trans hwc0)
  obtain rfl : [((indice 6 6 5 5 5 : Nat), (20 : ℚ))] = wc5 :=
    Option.some.inj (hcw5.symm.trans hwc5)
  have hcnt0 : (applyWrites st0 ws).contribution_counter (indice 6 6 0 0 0) = 1 := by
    rw [applyWrites_counter, hat0]
    decide
  have hint0 : (applyWrites st0 ws).interp_values (indice 6 6 0 0 0) = 10 := by
    rw [applyWrites_interp, hat0]
    decide
  have hcnt5 : (applyWrites st0 ws).contribution_counter (indice 6 6 5 5 5) = 1 := by
    rw [applyWrites_counter, hat5]
    decide
  have hint5 : (applyWrites st0 ws).interp_values (indice 6 6 5 5 5) = 20 := by
    rw [applyWrites_interp, hat5]
    decide
  have hval0 : (normalize 6 6 6 (applyWrites st0 ws)).interp_values
      (indice 6 6 0 0 0) = 10 := by
    rw [normalize_at _ (by decide) (by decide) (by decide) (by decide),
      hcnt0, hint0]
    decide
  have hval5 : (normalize 6 6 6 (applyWrites st0 ws)).interp_values
      (indice 6 6 5 5 5) = 20 := by
    rw [normalize_at _ (by decide) (by decide) (by decide) (by decide),
      hcnt5, hint5]
    decide
  have hcc0 : (normalize 6 6 6 (applyWrites st0 ws)).contribution_counter
      (indice 6 6 0 0 0) = 1 := by
    rw [normalize_counter]
    exact hcnt0
  have hcc5 : (normalize 6 6 6 (applyWrites st0 ws)).contribution_counter
      (indice 6 6 5 5 5) = 1 := by
    rw [normalize_counter]
    exact hcnt5
  rw [hgrid]
  simp only [Option.map_some', Option.some.injEq]
  rw [hval0, hval5, hcc0, hcc5]

end NaturalNeighbor
